import Mathlib

/-!
Verification of the ecology-bioblitz-scoring sync/scoring pipeline.

This file gives a shallow embedding, in Lean, of the store-facing and
scoring algorithms of the repository's ingest scripts and SQL:

* `mapSet`/`applyBatch`/`dedupeByKey` — the in-batch dedupe of `upsert`
  (`ingest.mjs`) and the keyed merge-on-conflict semantics of the
  PostgREST `resolution=merge-duplicates` upsert used by every writer.
* `scoreAll` internals (`dupCount`, `statO`, `statU`, `statRG`, `statSL`,
  `statD`) — duplicate suppression and per-student aggregate counts from
  `ingest.mjs`.
* `part010Requests` / `inatObsPagerRequests` — the page loops of the
  `part_010` ingest `main` and of `inatObsPager` in `ingest.mjs`.
* `sbUpsert` — the retry/bisection write loop of `part_010`.
* `fetchJsonWithRetries` / `fetchJson10` — the HTTP retry loops of
  `part_004` and `part_010`.
* `handleDeletions` / `reconcileDeletes` — the deletion feed handler of
  `part_005` and the set-difference reconciliation fallback of the
  ingest variant embedded in `diagnostic_score_entries_schema.sql`.
* `sbSelectLastUpdated` / `part010UpdatedSince` / `getSinceTimestamp` —
  the watermark/resume-point computations of `part_010` and of the
  diagnostic-file variant.

Timestamps carried as ISO-8601 UTC strings in the scripts are modelled
by an abstract linearly ordered type `T` (uniform ISO-8601 UTC strings
are order-isomorphic to the instants they denote); the JavaScript
`Date` parser is modelled by an explicit parameter `pt : T → Option Int`
(milliseconds since the epoch, `none` for an unparseable string).
Machine floats for coordinates are modelled by exact rationals, and
`toFixed(2)` by `round2` (round half up at two decimals). `fetch`
responses are modelled by oracles `Nat → _` consumed request by request.
-/

set_option autoImplicit false
set_option linter.unusedSectionVars false

namespace Bioblitz

/-! ## Definitions -/

section UpsertCoreDefs

variable {α K : Type} [DecidableEq K] (κ : α → K)

/-- One `map.set(keyFn(r), r)` step of the in-batch dedupe in `upsert`
(`ingest.mjs` lines 93-94): if the key is present, the held row for that
key is replaced in place; otherwise the row is appended.  This is also
the effect of one merge-on-conflict row write on a store keyed by `κ`. -/
def mapSet (acc : List α) (r : α) : List α :=
  if κ r ∈ acc.map κ then acc.map (fun x => if κ x = κ r then r else x)
  else acc ++ [r]

/-- Applying a batch of rows to a keyed store, row by row, with
merge-on-conflict semantics (`Prefer: resolution=merge-duplicates`). -/
def applyBatch (s b : List α) : List α := b.foldl (mapSet κ) s

/-- The in-batch dedupe of `upsert` (`ingest.mjs` lines 91-95): a JS `Map`
built by inserting every row under its conflict key, then `map.values()`.
Keys keep the position of their first occurrence; the value kept for a key
is the last row with that key, in input order. -/
def dedupeByKey (rows : List α) : List α := applyBatch κ [] rows

/-- The row a keyed store holds for key `k` (first match; under the
unique-key store invariant there is at most one). -/
def lookupKey : List α → K → Option α
  | [], _ => none
  | x :: xs, k => if κ x = k then some x else lookupKey xs k

/-- The last row of a batch carrying key `k`, if any. -/
def lastWith (b : List α) (k : K) : Option α := lookupKey κ b.reverse k

/-- Store invariant: one row per conflict key (`observations` has primary
key `inat_obs_id`; `assignment_observations` is unique per
`(assignment_id, inat_obs_id)`). -/
def NodupKeys (s : List α) : Prop := (s.map κ).Nodup

/-- The full store effect of `upsert(table, rows, onConflict)` in
`ingest.mjs` lines 88-108: dedupe the batch in memory by conflict key,
then POST it (in chunks of 200) with merge-on-conflict resolution. -/
def upsert (s rows : List α) : List α := applyBatch κ s (dedupeByKey κ rows)

/-- Elementwise residue of a batch: fold the batch over one row, replacing
it whenever a batch row carries its key (proof device for `applyBatch`). -/
def chainKey (b : List α) (x : α) : α :=
  b.foldl (fun y r => if κ y = κ r then r else y) x

/-- Replacement of one row by `r` when the keys agree (the element map
used by the in-place branch of `mapSet`). -/
def repKey (r x : α) : α := if κ x = κ r then r else x

end UpsertCoreDefs

section ScoreEntriesDefs

/-- One row of `public.score_entries_obs`
(`mvp_item_2_score_entries_obs_FINAL.sql`): primary key
`(run_id, inat_obs_id)`. -/
structure SEntry where
  run_id : Nat
  inat_obs_id : Nat
  user_login : String
  points : Int
deriving DecidableEq, Repr

/-- The conflict target of `score_entries_obs`: `(run_id, inat_obs_id)`. -/
def entryKey (e : SEntry) : Nat × Nat := (e.run_id, e.inat_obs_id)

/-- The write phase of `compute_scores_mvp` (same SQL file, lines 77-116):
`DELETE FROM score_entries_obs WHERE run_id = v_run` followed by
`INSERT ... ON CONFLICT (run_id, inat_obs_id) DO UPDATE` of the freshly
computed entries. -/
def compute_scores_write (state : List SEntry) (run : Nat)
    (entries : List SEntry) : List SEntry :=
  applyBatch entryKey (state.filter (fun e => e.run_id ≠ run)) entries

end ScoreEntriesDefs

section ScoringDefs

variable (T : Type)

/-- One joined observation row as consumed by `scoreAll` (`ingest.mjs`):
the `observations(*)` payload of an included `assignment_observations`
row.  `observed_at_utc` is `none` for a SQL `null`. -/
structure SObs where
  observed_at_utc : Option T
  taxon_id : Option Nat
  quality_grade : Option String
  taxon_rank : Option String
  latitude : Option ℚ
  longitude : Option ℚ

variable {T}

/-- JS truthiness of a nullable numeric id (`null` and `0` are falsy). -/
def truthyNat : Option Nat → Bool
  | some n => decide (n ≠ 0)
  | none => false

/-- `toFixed(2)` read back with `Number(...)`: the coordinate rounded to
two decimals, modelled on exact rationals as round-half-up of `100·q`
(computed on the reduced numerator and denominator). -/
def round2 (q : ℚ) : Int := (200 * q.num + (q.den : Int)).fdiv (2 * (q.den : Int))

variable [LinearOrder T] (pt : T → Option Int)

/-- `new Date(x).getTime()` on a nullable timestamp: JS turns `null` into
the epoch (time `0`), and an unparseable string into `NaN` (`none`). -/
def jsDateMs : Option T → Option Int
  | none => some 0
  | some s => pt s

/-- `localDayCR` (`ingest.mjs` line 190): the calendar day of the instant
shifted back eight hours, or `null` when the date does not parse.  Days
are counted as floor-divisions of the shifted epoch milliseconds. -/
def localDayCR (x : Option T) : Option Int :=
  (jsDateMs pt x).map (fun t => (t - 8 * 3600000).fdiv (24 * 3600000))

/-- The taxon guard of the duplicate test (`ingest.mjs` line 218):
`a.taxon_id && b.taxon_id && a.taxon_id === b.taxon_id`. -/
def taxSame (a b : SObs T) : Bool :=
  truthyNat a.taxon_id && truthyNat b.taxon_id
    && decide (a.taxon_id = b.taxon_id)

/-- `timeClose` (`ingest.mjs` line 220): both instants parse and the gap
is at most the window (a `NaN` operand makes the comparison false). -/
def timeClose (win : Int) (a b : SObs T) : Bool :=
  match jsDateMs pt a.observed_at_utc, jsDateMs pt b.observed_at_utc with
  | some ta, some tb => decide (tb - ta ≤ win)
  | _, _ => false

/-- `whereClose` (`ingest.mjs` lines 221-223): all four coordinates
present (finite) and equal after rounding to two decimals. -/
def whereClose (a b : SObs T) : Bool :=
  match a.latitude, b.latitude, a.longitude, b.longitude with
  | some la, some lb, some loa, some lob =>
    decide (round2 la = round2 lb) && decide (round2 loa = round2 lob)
  | _, _, _, _ => false

/-- The adjacent-pair duplicate test of `scoreAll` (`ingest.mjs` lines
218-224): both taxon ids truthy and equal, time gap at most the window,
and all four coordinates present with equal two-decimal roundings. -/
def flaggedPair (win : Int) (a b : SObs T) : Bool :=
  taxSame a b && timeClose pt win a b && whereClose a b

/-- Comparator of the duplicate scan's sort: ascending `observed_at_utc`
(the scripts compare the ISO strings with `localeCompare`, which on
uniform ISO-8601 UTC strings is the chronological order). -/
def obsLe (a b : SObs T) : Bool :=
  match a.observed_at_utc, b.observed_at_utc with
  | some x, some y => decide (x ≤ y)
  | none, _ => true
  | some _, none => false

/-- The list scanned for duplicates (`ingest.mjs` line 214): observations
with a truthy `observed_at_utc`, in ascending observed order (stable
sort, as JS `Array.prototype.sort` is). -/
def dupObs (l : List (SObs T)) : List (SObs T) :=
  List.insertionSort (fun a b => obsLe a b = true)
    (l.filter (fun o => o.observed_at_utc.isSome))

/-- Adjacent pairs of a list: `(l[0], l[1]), (l[1], l[2]), …`. -/
def adjPairs {β : Type} (l : List β) : List (β × β) := l.zip l.tail

/-- The duplicate counter of `scoreAll` (`ingest.mjs` lines 216-227): the
number of flagged adjacent pairs of the time-ordered observation list. -/
def dupCount (win : Int) (l : List (SObs T)) : Nat :=
  (adjPairs (dupObs l)).countP (fun p => flaggedPair pt win p.1 p.2)

/-- `isSL` (`ingest.mjs` line 188): species-or-finer taxonomic rank. -/
def isSL (r : Option String) : Bool :=
  ["species", "subspecies", "variety", "form"].contains (r.getD "")

/-- `O`: the student's observation count. -/
def statO (l : List (SObs T)) : Nat := l.length

/-- The truthy taxon ids of a student's observations
(`obs.map(o => o.taxon_id).filter(Boolean)`). -/
def taxaOf (l : List (SObs T)) : List Nat :=
  (l.filterMap (fun o => o.taxon_id)).filter (fun t => decide (t ≠ 0))

/-- `U`: the number of distinct truthy taxon ids (`new Set(...).size`). -/
def statU (l : List (SObs T)) : Nat := (taxaOf l).toFinset.card

/-- `RG`: the number of research-grade observations. -/
def statRG (l : List (SObs T)) : Nat :=
  (l.filter (fun o => decide (o.quality_grade = some "research"))).length

/-- `SL`: the number of observations at species-or-finer rank. -/
def statSL (l : List (SObs T)) : Nat :=
  (l.filter (fun o => isSL o.taxon_rank)).length

/-- The (possibly null) local days of a student's observations. -/
def daysOf (l : List (SObs T)) : List Int :=
  l.filterMap (fun o => localDayCR pt o.observed_at_utc)

/-- `D`: the number of distinct local calendar days touched. -/
def statD (l : List (SObs T)) : Nat := (daysOf pt l).toFinset.card

end ScoringDefs

section PagerDefs

variable {β : Type}

/-- The page of rows the upstream API returns for 0-based page index `p`
and page size `per`, when the full in-window result set (in ascending
`updated_at` order) is `rows`.  JS page number `n` is index `n - 1`. -/
def pageAt (rows : List β) (per p : Nat) : List β :=
  (rows.drop (p * per)).take per

/-- The fetch loop of `part_010`'s `main` (lines 314-340): request pages
while the page counter is within the cap, breaking on an empty page and
after a short page.  Returns the 0-based indices of the pages requested;
the fuel is the number of pages the cap still allows. -/
def pagerGoPart010 (rows : List β) (per : Nat) : Nat → Nat → List Nat
  | 0, _ => []
  | f + 1, p =>
    if (pageAt rows per p).length < per then [p]
    else p :: pagerGoPart010 rows per f (p + 1)

/-- Page indices requested by `part_010`'s `main` loop
(`while (page <= MAX_PAGES)`, `MAX_PAGES = 200` in the script). -/
def part010Requests (rows : List β) (per maxPages : Nat) : List Nat :=
  pagerGoPart010 rows per maxPages 0

/-- The loop of `inatObsPager` (`ingest.mjs` lines 40-62): request pages
forever, breaking only when a page comes back with zero rows.  With the
prefix page model each non-empty page consumes at least one row, so
`rows.length + 1` units of fuel always reach the break. -/
def pagerGoInat (rows : List β) (per : Nat) : Nat → Nat → List Nat
  | 0, _ => []
  | f + 1, p =>
    if (pageAt rows per p).isEmpty then [p]
    else p :: pagerGoInat rows per f (p + 1)

/-- Page indices requested by `inatObsPager` in `ingest.mjs`. -/
def inatObsPagerRequests (rows : List β) (per : Nat) : List Nat :=
  pagerGoInat rows per (rows.length + 1) 0

/-- The page-collecting loop of `reconcileDeletes` in the diagnostic-file
ingest variant (lines 232-244): gather the current upstream rows of the
window, page by page, stopping on an empty page, after a short page, or
at the page cap (50 pages in the script). -/
def collectGo (rows : List β) (per : Nat) : Nat → Nat → List β
  | 0, _ => []
  | f + 1, p =>
    if (pageAt rows per p).isEmpty then []
    else if (pageAt rows per p).length < per then pageAt rows per p
    else pageAt rows per p ++ collectGo rows per f (p + 1)

/-- All rows collected by the reconciliation re-fetch. -/
def reconcileCollect (rows : List β) (per maxPages : Nat) : List β :=
  collectGo rows per maxPages 0

end PagerDefs

section SbUpsertDefs

variable {β : Type}

/-- The response classes `sbUpsert` (`part_010` lines 79-134)
distinguishes: success, HTTP 500 carrying Postgres error 57014
(statement timeout), any other 5xx, and any other failing status. -/
inductive SbResp where
  | ok
  | timeout
  | serverErr
  | clientErr
deriving DecidableEq, Repr

/-- `sbUpsert` of `part_010`: POST the whole row list; on success report
`rows.length`; on a 57014 timeout with the batch size above the floor,
split the rows at `ceil(len / 2)` and recurse on each half with the
halved batch size (still inside the `try`, so a failing half falls back
to a full-batch retry); on any other error retry up to `maxR` times,
then surface the error.  The oracle maps the index of each POST to its
response; the result is `(count? , next oracle index, request trace)`
where each trace entry is `(rows sent, batch size)` and `none` models a
thrown error.  `fuel` bounds the recursion depth and is harmless once
large enough (every recursive call consumes one unit). -/
def sbUpsert (oracle : Nat → SbResp) (minB maxR : Nat) :
    Nat → List β → Nat → Nat → Nat → Option Nat × Nat × List (Nat × Nat)
  | 0, _, _, _, k => (none, k, [])
  | f + 1, rows, bs, attempt, k =>
    if rows.isEmpty then (some 0, k, [])
    else
      match oracle k with
      | .ok => (some rows.length, k + 1, [(rows.length, bs)])
      | .timeout =>
        if minB < bs then
          let nbs := max minB (bs / 2)
          let mid := (rows.length + 1) / 2
          match sbUpsert oracle minB maxR f (rows.take mid) nbs 0 (k + 1) with
          | (some c1, k1, t1) =>
            match sbUpsert oracle minB maxR f (rows.drop mid) nbs 0 k1 with
            | (some c2, k2, t2) =>
              (some (c1 + c2), k2, (rows.length, bs) :: (t1 ++ t2))
            | (none, k2, t2) =>
              if attempt < maxR then
                ((sbUpsert oracle minB maxR f rows bs (attempt + 1) k2).1,
                 (sbUpsert oracle minB maxR f rows bs (attempt + 1) k2).2.1,
                 (rows.length, bs) ::
                   (t1 ++ t2 ++
                     (sbUpsert oracle minB maxR f rows bs (attempt + 1) k2).2.2))
              else (none, k2, (rows.length, bs) :: (t1 ++ t2))
          | (none, k1, t1) =>
            if attempt < maxR then
              ((sbUpsert oracle minB maxR f rows bs (attempt + 1) k1).1,
               (sbUpsert oracle minB maxR f rows bs (attempt + 1) k1).2.1,
               (rows.length, bs) ::
                 (t1 ++ (sbUpsert oracle minB maxR f rows bs (attempt + 1) k1).2.2))
            else (none, k1, (rows.length, bs) :: t1)
        else
          if attempt < maxR then
            ((sbUpsert oracle minB maxR f rows bs (attempt + 1) (k + 1)).1,
             (sbUpsert oracle minB maxR f rows bs (attempt + 1) (k + 1)).2.1,
             (rows.length, bs) ::
               (sbUpsert oracle minB maxR f rows bs (attempt + 1) (k + 1)).2.2)
          else (none, k + 1, [(rows.length, bs)])
      | .serverErr =>
        if attempt < maxR then
          ((sbUpsert oracle minB maxR f rows bs (attempt + 1) (k + 1)).1,
           (sbUpsert oracle minB maxR f rows bs (attempt + 1) (k + 1)).2.1,
           (rows.length, bs) ::
             (sbUpsert oracle minB maxR f rows bs (attempt + 1) (k + 1)).2.2)
        else (none, k + 1, [(rows.length, bs)])
      | .clientErr =>
        if attempt < maxR then
          ((sbUpsert oracle minB maxR f rows bs (attempt + 1) (k + 1)).1,
           (sbUpsert oracle minB maxR f rows bs (attempt + 1) (k + 1)).2.1,
           (rows.length, bs) ::
             (sbUpsert oracle minB maxR f rows bs (attempt + 1) (k + 1)).2.2)
        else (none, k + 1, [(rows.length, bs)])

/-- The oracle of the claim's scenario: the first POST times out, every
later POST succeeds. -/
def oracleC5 : Nat → SbResp := fun n => if n = 0 then .timeout else .ok

end SbUpsertDefs

section FetchDefs

/-- One HTTP response: status code and body text (status `0` models a
network-level fetch failure, as `part_004` does). -/
structure HResp where
  status : Nat
  body : String
deriving DecidableEq, Repr

/-- `fetchJsonWithRetries` of `part_004` (lines 70-114): attempts
`1 … maxRetries`; a 429, 403 or 5xx response with attempts left is
retried after a backoff; any other failing response throws immediately
with the body truncated to 240 characters; exhausting the attempts
throws.  Fuel counts the attempts remaining; the error payload is the
status with the truncated body; `.ok k` returns the body of request `k`. -/
def fetchJsonWithRetries (oracle : Nat → HResp) :
    Nat → Nat → Except (Nat × String) Nat × Nat
  | 0, k => (.error (0, "Exceeded retries"), k)
  | f + 1, k =>
    let r := oracle k
    if 200 ≤ r.status ∧ r.status < 300 then (.ok k, k + 1)
    else if (r.status = 429 ∨ r.status = 403 ∨ 500 ≤ r.status) ∧ 0 < f then
      fetchJsonWithRetries oracle f (k + 1)
    else (.error (r.status, r.body.take 240), k + 1)

/-- `fetchJson` of `part_010` (lines 150-201): attempts `0 … maxRetries`.
On the last attempt a 429 slips through the loop (the function returns
`undefined`, modelled `none`) and any other failing status is thrown;
with attempts left, every failing response — 429, 403, 5xx and also any
other status, whose `throw` is caught by the surrounding `catch` — is
retried.  Fuel counts the attempts remaining. -/
def fetchJson10 (oracle : Nat → HResp) :
    Nat → Nat → Option (Except Nat Nat) × Nat
  | 0, k => (none, k)
  | f + 1, k =>
    let r := oracle k
    if 200 ≤ r.status ∧ r.status < 300 then (some (.ok k), k + 1)
    else if 0 < f then fetchJson10 oracle f (k + 1)
    else if r.status = 429 then (none, k + 1)
    else (some (.error r.status), k + 1)

/-- Oracle with a single 403 response followed by successes. -/
def oracle403 : Nat → HResp :=
  fun n => if n = 0 then ⟨403, "Forbidden"⟩ else ⟨200, "body"⟩

/-- Oracle with a single 404 response followed by successes. -/
def oracle404 : Nat → HResp :=
  fun n => if n = 0 then ⟨404, "Not Found"⟩ else ⟨200, "body"⟩

end FetchDefs

section ReconcileDefs

/-- One locally stored observation row as the deletion logic sees it:
its upstream id and its `updated_at` watermark (epoch milliseconds). -/
structure ObsRow where
  inat_obs_id : Nat
  updated_at : Int
deriving DecidableEq, Repr

/-- `handleDeletions` of `part_005` (lines 117-156) applied to the local
store: `feed = some ids` is a successful deletion-feed response, whose
ids are deleted; `feed = none` is a failed call (`!response.ok`), on
which the function logs and returns — nothing is deleted. -/
def handleDeletions (feed : Option (List Nat)) (store : List ObsRow) :
    List ObsRow :=
  match feed with
  | none => store
  | some ids => store.filter (fun r => decide (r.inat_obs_id ∉ ids))

/-- The local ids the reconciliation fallback considers in-window:
`observations?select=id&updated_at=gte.since`. -/
def sbSelectRecentIds (store : List ObsRow) (since : Int) : List Nat :=
  (store.filter (fun r => decide (since ≤ r.updated_at))).map
    (fun r => r.inat_obs_id)

/-- `reconcileDeletes` of the diagnostic-file ingest variant (lines
232-250): re-fetch the current upstream id set of the window (pages of
`per`, capped at `maxPages`) and keep the locally stored in-window ids
that are absent from it. -/
def reconcileDeletes (upstreamIds : List Nat) (store : List ObsRow)
    (since : Int) (per maxPages : Nat) : List Nat :=
  (sbSelectRecentIds store since).filter
    (fun i => decide (i ∉ reconcileCollect upstreamIds per maxPages))

/-- `sbDeleteByIds` (same file, lines 113-125): delete the rows whose id
is in the list. -/
def sbDeleteByIds (store : List ObsRow) (ids : List Nat) : List ObsRow :=
  store.filter (fun r => decide (r.inat_obs_id ∉ ids))

end ReconcileDefs

section ResumeDefs

/-- The `SELECT … ORDER BY updated_at DESC LIMIT 1` read of
`getLastUpdatedAt` (`part_010` lines 235-250) over the non-null
`updated_at` column values: sort descending, take the head. -/
def sbSelectLastUpdated (tbl : List Int) : Option Int :=
  (List.insertionSort (fun a b => b ≤ a) tbl).head?

/-- The `updated_since` filter `part_010`'s `main` builds (line 285):
the last persisted watermark minus the 30-second safety overlap, or no
filter at all on the first run. -/
def part010UpdatedSince (tbl : List Int) : Option Int :=
  (sbSelectLastUpdated tbl).map (fun t => t - 30000)

/-- `getSinceTimestamp` of the diagnostic-file ingest variant (lines
132-138): the latest ledgered `inat_updated_through_utc` (epoch default
`new Date(0)` when the ledger is empty) minus the 30-second
`SAFETY_OVERLAP_SECONDS`. -/
def getSinceTimestamp (ledger : List Int) : Int :=
  ((List.insertionSort (fun a b => b ≤ a) ledger).head?.getD 0) - 30000

end ResumeDefs

section ScenarioDefs

/-- Timestamp parser of the duplicate-count scenario: three observed
instants at `t`, `t + 5 min`, `t + 2 h` (milliseconds), keyed `0,1,2`. -/
def pt3 : Nat → Option Int :=
  fun s => if s = 0 then some 0
    else if s = 1 then some 300000
    else if s = 2 then some 7200000
    else none

/-- A scenario observation: same taxon and location, observed at the
instant keyed by `s`. -/
def obsAt3 (s : Nat) : SObs Nat :=
  ⟨some s, some 7, some "research", some "species", some 10, some 20⟩

/-- The scenario list: same taxon and location at `t`, `t + 5 min`,
`t + 2 h`. -/
def scenarioC3 : List (SObs Nat) := [obsAt3 0, obsAt3 1, obsAt3 2]

/-- A joined row with a SQL-null `observed_at_utc` (research grade,
species rank, taxon 7, both coordinates present). -/
def nullTimeObs : SObs Nat :=
  ⟨none, some 7, some "research", some "species", some 10, some 20⟩

end ScenarioDefs

/-! ## Theorems: keyed upsert core -/

section UpsertCoreLemmas

variable {α K : Type} [DecidableEq K] (κ : α → K)

@[simp] theorem applyBatch_nil (s : List α) : applyBatch κ s [] = s := rfl

@[simp] theorem applyBatch_cons (s : List α) (r : α) (b : List α) :
    applyBatch κ s (r :: b) = applyBatch κ (mapSet κ s r) b := rfl

@[simp] theorem lookupKey_nil (k : K) : lookupKey κ [] k = none := rfl

theorem lookupKey_cons (x : α) (xs : List α) (k : K) :
    lookupKey κ (x :: xs) k = if κ x = k then some x else lookupKey κ xs k := rfl

theorem lookupKey_append (l₁ l₂ : List α) (k : K) :
    lookupKey κ (l₁ ++ l₂) k = (lookupKey κ l₁ k).or (lookupKey κ l₂ k) := by
  induction l₁ with
  | nil => simp
  | cons x xs ih =>
    by_cases h : κ x = k <;> simp [lookupKey_cons, h, ih]

theorem lookupKey_eq_none_iff (l : List α) (k : K) :
    lookupKey κ l k = none ↔ k ∉ l.map κ := by
  induction l with
  | nil => simp
  | cons x xs ih =>
    rw [lookupKey_cons]
    by_cases h : κ x = k
    · simp [h]
    · simp only [if_neg h, ih, List.map_cons, List.mem_cons]
      constructor
      · intro hn hc
        rcases hc with hc | hc
        · exact h hc.symm
        · exact hn hc
      · intro hn hc
        exact hn (Or.inr hc)

theorem lookupKey_mem (l : List α) (k : K) (r : α)
    (h : lookupKey κ l k = some r) : r ∈ l ∧ κ r = k := by
  induction l with
  | nil => simp at h
  | cons x xs ih =>
    rw [lookupKey_cons] at h
    split at h
    · injection h with h1
      subst h1
      exact ⟨List.mem_cons_self x xs, by assumption⟩
    · rcases ih h with ⟨h1, h2⟩
      exact ⟨List.mem_cons_of_mem _ h1, h2⟩

theorem keys_mapSet (acc : List α) (r : α) :
    (mapSet κ acc r).map κ =
      if κ r ∈ acc.map κ then acc.map κ else acc.map κ ++ [κ r] := by
  unfold mapSet
  split
  · rw [List.map_map]
    exact List.map_congr_left fun x _ => by
      by_cases h : κ x = κ r <;> simp [Function.comp, h]
  · simp

theorem nodupKeys_nil : NodupKeys κ ([] : List α) := by simp [NodupKeys]

theorem nodupKeys_mapSet {acc : List α} (h : NodupKeys κ acc) (r : α) :
    NodupKeys κ (mapSet κ acc r) := by
  unfold NodupKeys at *
  rw [keys_mapSet]
  split
  · exact h
  · rename_i hnm
    simp [List.nodup_append, h, hnm]

theorem lookupKey_map_rep_ne (xs : List α) (r : α) {k : K} (hk : k ≠ κ r) :
    lookupKey κ (xs.map (fun x => if κ x = κ r then r else x)) k =
      lookupKey κ xs k := by
  induction xs with
  | nil => rfl
  | cons y ys ih =>
    by_cases hy : κ y = κ r
    · simp only [List.map_cons, if_pos hy, lookupKey_cons]
      rw [if_neg (fun e => hk e.symm), if_neg (fun e => hk (hy ▸ e).symm), ih]
    · simp only [List.map_cons, if_neg hy, lookupKey_cons]
      by_cases h2 : κ y = k <;> simp [h2, ih]

theorem lookupKey_map_rep_self (xs : List α) (r : α) :
    lookupKey κ (xs.map (fun x => if κ x = κ r then r else x)) (κ r) =
      if κ r ∈ xs.map κ then some r else none := by
  induction xs with
  | nil => simp
  | cons y ys ih =>
    by_cases hy : κ y = κ r
    · simp [List.map_cons, hy, lookupKey_cons]
    · have hne : ¬(κ r = κ y) := fun e => hy e.symm
      simp [List.map_cons, lookupKey_cons, hy, hne, ih]

theorem lookupKey_mapSet (acc : List α) (r : α) (k : K) :
    lookupKey κ (mapSet κ acc r) k =
      if k = κ r then some r else lookupKey κ acc k := by
  unfold mapSet
  by_cases hmem : κ r ∈ acc.map κ
  · rw [if_pos hmem]
    by_cases hk : k = κ r
    · subst hk
      rw [lookupKey_map_rep_self, if_pos hmem, if_pos rfl]
    · rw [lookupKey_map_rep_ne κ _ _ hk, if_neg hk]
  · rw [if_neg hmem, lookupKey_append]
    by_cases hk : k = κ r
    · subst hk
      have h0 : lookupKey κ acc (κ r) = none :=
        (lookupKey_eq_none_iff κ _ _).mpr hmem
      simp [h0, lookupKey_cons]
    · have hne : κ r ≠ k := fun e => hk e.symm
      have h0 : lookupKey κ [r] k = none := by
        rw [lookupKey_cons, if_neg hne]
        rfl
      rw [h0, Option.or_none, if_neg hk]

theorem lastWith_nil (k : K) : lastWith κ [] k = none := rfl

theorem lastWith_cons (r : α) (b : List α) (k : K) :
    lastWith κ (r :: b) k =
      (lastWith κ b k).or (if κ r = k then some r else none) := by
  unfold lastWith
  rw [List.reverse_cons, lookupKey_append]
  rfl

theorem lastWith_eq_none_iff (b : List α) (k : K) :
    lastWith κ b k = none ↔ k ∉ b.map κ := by
  unfold lastWith
  rw [lookupKey_eq_none_iff]
  simp

theorem lastWith_mem (b : List α) (k : K) (r : α)
    (h : lastWith κ b k = some r) : r ∈ b ∧ κ r = k := by
  unfold lastWith at h
  have h2 := lookupKey_mem κ _ _ _ h
  exact ⟨List.mem_reverse.mp h2.1, h2.2⟩

theorem lookupKey_applyBatch (s b : List α) (k : K) :
    lookupKey κ (applyBatch κ s b) k =
      (lastWith κ b k).or (lookupKey κ s k) := by
  induction b generalizing s with
  | nil => simp [lastWith_nil]
  | cons r b ih =>
    rw [applyBatch_cons, ih, lookupKey_mapSet, lastWith_cons, Option.or_assoc]
    congr 1
    by_cases hk : k = κ r
    · subst hk; simp
    · rw [if_neg hk, if_neg (fun (e : κ r = k) => hk e.symm), Option.none_or]

theorem mem_keys_applyBatch (s b : List α) (k : K) :
    k ∈ (applyBatch κ s b).map κ ↔ k ∈ b.map κ ∨ k ∈ s.map κ := by
  constructor
  · intro h
    by_contra hc
    push_neg at hc
    have hb := (lastWith_eq_none_iff κ b k).mpr hc.1
    have hs := (lookupKey_eq_none_iff κ s k).mpr hc.2
    have h0 : lookupKey κ (applyBatch κ s b) k = none := by
      rw [lookupKey_applyBatch, hb, hs]; rfl
    exact ((lookupKey_eq_none_iff κ _ k).mp h0) h
  · intro h
    by_contra hc
    have h0 := (lookupKey_eq_none_iff κ _ k).mpr hc
    rw [lookupKey_applyBatch] at h0
    rcases h with h | h
    · cases he : lastWith κ b k with
      | none => exact ((lastWith_eq_none_iff κ b k).mp he) h
      | some v => rw [he] at h0; simp at h0
    · cases he : lastWith κ b k with
      | none =>
        rw [he] at h0
        simp at h0
        exact ((lookupKey_eq_none_iff κ s k).mp h0) h
      | some v => rw [he] at h0; simp at h0

theorem nodupKeys_applyBatch {s : List α} (hs : NodupKeys κ s) (b : List α) :
    NodupKeys κ (applyBatch κ s b) := by
  induction b generalizing s with
  | nil => exact hs
  | cons r b ih => exact ih (nodupKeys_mapSet κ hs r)

theorem lookupKey_of_nodup {s : List α} (hs : NodupKeys κ s) {x : α}
    (hx : x ∈ s) : lookupKey κ s (κ x) = some x := by
  induction s with
  | nil => cases hx
  | cons y ys ih =>
    unfold NodupKeys at hs
    rw [List.map_cons, List.nodup_cons] at hs
    rcases List.mem_cons.mp hx with rfl | hmem
    · simp [lookupKey_cons]
    · have hne : κ y ≠ κ x := fun e => hs.1 (e ▸ List.mem_map_of_mem κ hmem)
      rw [lookupKey_cons, if_neg hne]
      exact ih hs.2 hmem

theorem mem_mapSet {acc : List α} {r x : α} (h : x ∈ mapSet κ acc r) :
    x ∈ acc ∨ x = r := by
  unfold mapSet at h
  split at h
  · rcases List.mem_map.mp h with ⟨y, hy, he⟩
    by_cases hk : κ y = κ r
    · right; rw [← he]; simp [hk]
    · left; rw [← he]; simpa [hk] using hy
  · rcases List.mem_append.mp h with h | h
    · exact Or.inl h
    · right; simpa using h

theorem mem_applyBatch {s b : List α} {x : α} (h : x ∈ applyBatch κ s b) :
    x ∈ s ∨ x ∈ b := by
  induction b generalizing s with
  | nil => exact Or.inl h
  | cons r b ih =>
    rw [applyBatch_cons] at h
    rcases ih h with h2 | h2
    · rcases mem_mapSet κ h2 with h3 | h3
      · exact Or.inl h3
      · exact Or.inr (h3 ▸ List.mem_cons_self r b)
    · exact Or.inr (List.mem_cons_of_mem r h2)

theorem chainKey_cons (r : α) (b : List α) (x : α) :
    chainKey κ (r :: b) x = chainKey κ b (repKey κ r x) := rfl

theorem chainKey_eq_lastWith (b : List α) (x : α) :
    chainKey κ b x = (lastWith κ b (κ x)).getD x := by
  induction b generalizing x with
  | nil => rfl
  | cons r b ih =>
    rw [chainKey_cons, repKey]
    by_cases h : κ x = κ r
    · rw [if_pos h, ih r, lastWith_cons, if_pos h.symm, h]
      cases lastWith κ b (κ r) <;> simp
    · rw [if_neg h, ih x, lastWith_cons, if_neg (fun e => h e.symm)]
      simp

theorem mapSet_of_mem {acc : List α} {r : α} (h : κ r ∈ acc.map κ) :
    mapSet κ acc r = acc.map (repKey κ r) := by
  unfold mapSet
  rw [if_pos h]
  rfl

theorem keys_map_rep (acc : List α) (r : α) :
    (acc.map (repKey κ r)).map κ = acc.map κ := by
  rw [List.map_map]
  refine List.map_congr_left fun x _ => ?_
  by_cases h : κ x = κ r <;> simp [Function.comp, repKey, h]

theorem applyBatch_of_keys_mem {b s : List α} (h : ∀ r ∈ b, κ r ∈ s.map κ) :
    applyBatch κ s b = s.map (chainKey κ b) := by
  induction b generalizing s with
  | nil =>
    rw [applyBatch_nil]
    exact (List.map_congr_left fun x _ => rfl).trans (List.map_id s) |>.symm
  | cons r b ih =>
    rw [applyBatch_cons, mapSet_of_mem κ (h r (List.mem_cons_self r b))]
    rw [ih fun r' hb => by
      rw [keys_map_rep]; exact h r' (List.mem_cons_of_mem _ hb)]
    rw [List.map_map]
    exact List.map_congr_left fun x _ => (chainKey_cons κ r b x).symm

theorem lastWith_of_mem_applyBatch {s b : List α} (hs : NodupKeys κ s) {x : α}
    (hx : x ∈ applyBatch κ s b) (hk : κ x ∈ b.map κ) :
    lastWith κ b (κ x) = some x := by
  have h1 : lookupKey κ (applyBatch κ s b) (κ x) = some x :=
    lookupKey_of_nodup κ (nodupKeys_applyBatch κ hs b) hx
  rw [lookupKey_applyBatch] at h1
  cases he : lastWith κ b (κ x) with
  | none => exact absurd hk ((lastWith_eq_none_iff κ b _).mp he)
  | some v =>
    rw [he] at h1
    simpa using h1

theorem applyBatch_replay {s : List α} (hs : NodupKeys κ s) (b : List α) :
    applyBatch κ (applyBatch κ s b) b = applyBatch κ s b := by
  have hmem : ∀ r ∈ b, κ r ∈ (applyBatch κ s b).map κ := fun r hr =>
    (mem_keys_applyBatch κ s b (κ r)).mpr (Or.inl (List.mem_map_of_mem κ hr))
  rw [applyBatch_of_keys_mem κ hmem]
  have hfix : ∀ x ∈ applyBatch κ s b, chainKey κ b x = x := by
    intro x hx
    rw [chainKey_eq_lastWith]
    by_cases hk : κ x ∈ b.map κ
    · rw [lastWith_of_mem_applyBatch κ hs hx hk]; rfl
    · rw [(lastWith_eq_none_iff κ b (κ x)).mpr hk]; rfl
  exact (List.map_congr_left hfix).trans (List.map_id _)

theorem mapSet_append_fresh {s d : List α} {r : α} (h : κ r ∉ s.map κ) :
    mapSet κ (s ++ d) r = s ++ mapSet κ d r := by
  unfold mapSet
  by_cases hd : κ r ∈ d.map κ
  · rw [if_pos (by simp [hd]), if_pos hd, List.map_append]
    congr 1
    refine (List.map_congr_left fun x hx => ?_).trans (List.map_id s)
    have hne : κ x ≠ κ r := fun e => h (e ▸ List.mem_map_of_mem κ hx)
    rw [if_neg hne]
    rfl
  · have h2 : κ r ∉ (s ++ d).map κ := by simp [List.map_append, h, hd]
    rw [if_neg h2, if_neg hd, List.append_assoc]

theorem applyBatch_append_fresh {s d b : List α}
    (h : ∀ r ∈ b, κ r ∉ s.map κ) :
    applyBatch κ (s ++ d) b = s ++ applyBatch κ d b := by
  induction b generalizing d with
  | nil => simp
  | cons r b ih =>
    rw [applyBatch_cons, applyBatch_cons,
      mapSet_append_fresh κ (h r (List.mem_cons_self r b))]
    exact ih fun r' h' => h r' (List.mem_cons_of_mem _ h')

theorem applyBatch_fresh {s b : List α} (h : ∀ r ∈ b, κ r ∉ s.map κ) :
    applyBatch κ s b = s ++ dedupeByKey κ b := by
  have h0 := @applyBatch_append_fresh α K _ κ s [] b h
  rw [List.append_nil] at h0
  exact h0

end UpsertCoreLemmas

/-! ## Claim C1, C9, C2 -/

/-- Claim C1: for every batch of normalized records, re-applying the
upsert any number of further times leaves the store state identical to
the state after the first application; a row whose conflict key matches
an existing row replaces it wholesale, and a row with a new key is
inserted.  Stated for any conflict key `κ` over a store satisfying the
one-row-per-key invariant, for the `upsert` of `ingest.mjs` (in-batch
dedupe followed by a merge-on-conflict write of every row). -/
theorem upsert_keyed_replace_and_idempotent {α K : Type} [DecidableEq K]
    (κ : α → K) (s b : List α) (hs : NodupKeys κ s) :
    (∀ r k, lookupKey κ (mapSet κ s r) k =
        if k = κ r then some r else lookupKey κ s k)
    ∧ upsert κ (upsert κ s b) b = upsert κ s b
    ∧ ∀ n, (fun st => upsert κ st b)^[n + 1] s = upsert κ s b := by
  refine ⟨fun r k => lookupKey_mapSet κ s r k,
    applyBatch_replay κ hs (dedupeByKey κ b), ?_⟩
  intro n
  induction n with
  | zero => rfl
  | succ n ih =>
    rw [Function.iterate_succ_apply', ih]
    exact applyBatch_replay κ hs (dedupeByKey κ b)

/-- Witness for C1: a concrete replay on a two-row store keyed by the
first component, with a batch that overwrites one row and inserts one. -/
theorem upsert_keyed_replace_and_idempotent_witness :
    upsert Prod.fst
        (upsert Prod.fst [((1 : Nat), (10 : Nat)), (2, 20)] [(2, 99), (3, 30)])
        [(2, 99), (3, 30)]
      = upsert Prod.fst [((1 : Nat), (10 : Nat)), (2, 20)] [(2, 99), (3, 30)] :=
  (upsert_keyed_replace_and_idempotent Prod.fst
    [((1 : Nat), (10 : Nat)), (2, 20)] [(2, 99), (3, 30)]
    (by unfold NodupKeys; decide)).2.1

/-- Claim C9: the `upsert` of `ingest.mjs` dedupes its batch in memory by
conflict key before any write: the deduped batch has pairwise distinct
keys (hence so does every chunk `slice(i, i + 200)` sent in one POST),
the row kept for a key is the last row with that key in input order, and
every key of the input batch is still represented. -/
theorem upsert_inbatch_dedupe_last_and_distinct {α K : Type} [DecidableEq K]
    (κ : α → K) (rows : List α) :
    NodupKeys κ (dedupeByKey κ rows)
    ∧ (∀ r, r ∈ dedupeByKey κ rows → lastWith κ rows (κ r) = some r)
    ∧ (∀ k, k ∈ rows.map κ → ∃ r, r ∈ dedupeByKey κ rows ∧ κ r = k)
    ∧ (∀ i n, NodupKeys κ (((dedupeByKey κ rows).drop i).take n)) := by
  have hnd : NodupKeys κ (dedupeByKey κ rows) :=
    nodupKeys_applyBatch κ (nodupKeys_nil κ) rows
  refine ⟨hnd, ?_, ?_, ?_⟩
  · intro r hr
    have hk : κ r ∈ rows.map κ := by
      rcases mem_applyBatch κ hr with h | h
      · simp at h
      · exact List.mem_map_of_mem κ h
    exact lastWith_of_mem_applyBatch κ (nodupKeys_nil κ) hr hk
  · intro k hk
    cases he : lastWith κ rows k with
    | none => exact absurd hk ((lastWith_eq_none_iff κ rows k).mp he)
    | some r =>
      have h1 : lookupKey κ (dedupeByKey κ rows) k = some r := by
        unfold dedupeByKey
        rw [lookupKey_applyBatch, he]
        rfl
      have hm := lookupKey_mem κ _ _ _ h1
      exact ⟨r, hm.1, hm.2⟩
  · intro i n
    have hsub : (((dedupeByKey κ rows).drop i).take n).Sublist
        (dedupeByKey κ rows) :=
      (List.take_sublist _ _).trans (List.drop_sublist _ _)
    exact (hsub.map κ).nodup hnd

/-- Witness for C9: in the batch `[(1,1), (1,2), (2,5)]` keyed by the
first component, the deduped batch keeps `(1,2)` — the last row of key
`1` in input order. -/
theorem upsert_inbatch_dedupe_last_and_distinct_witness :
    lastWith Prod.fst [((1 : Nat), (1 : Nat)), (1, 2), (2, 5)] 1
      = some (1, 2) :=
  (upsert_inbatch_dedupe_last_and_distinct Prod.fst
    [((1 : Nat), (1 : Nat)), (1, 2), (2, 5)]).2.1 (1, 2) (by decide)

/-- Claim C2: the write phase of `compute_scores_mvp` first deletes every
existing `score_entries_obs` row of the run and then inserts the freshly
computed entries, so recomputation is a full rebuild of that run's rows:
the run's rows after the write are exactly the computed entries
(deduplicated on the `(run_id, inat_obs_id)` conflict target), whatever
rows the run had before and independent of the prior state; rows of
other runs are untouched; and the write is idempotent. -/
theorem compute_scores_full_rebuild (state state2 : List SEntry) (run : Nat)
    (entries : List SEntry) (he : ∀ e ∈ entries, e.run_id = run) :
    compute_scores_write state run entries
        = state.filter (fun e => e.run_id ≠ run) ++ dedupeByKey entryKey entries
    ∧ (compute_scores_write state run entries).filter (fun e => e.run_id = run)
        = dedupeByKey entryKey entries
    ∧ (compute_scores_write state run entries).filter (fun e => e.run_id ≠ run)
        = state.filter (fun e => e.run_id ≠ run)
    ∧ (compute_scores_write state run entries).filter (fun e => e.run_id = run)
        = (compute_scores_write state2 run entries).filter
            (fun e => e.run_id = run)
    ∧ compute_scores_write (compute_scores_write state run entries) run entries
        = compute_scores_write state run entries := by
  have hpure : ∀ x, x ∈ dedupeByKey entryKey entries → x.run_id = run := by
    intro x hx
    rcases mem_applyBatch entryKey hx with h | h
    · simp at h
    · exact he x h
  have hfresh : ∀ (st : List SEntry), ∀ e ∈ entries,
      entryKey e ∉ (st.filter (fun e => e.run_id ≠ run)).map entryKey := by
    intro st e heM hc
    rcases List.mem_map.mp hc with ⟨e2, he2, hk⟩
    have hne : e2.run_id ≠ run := by
      have := (List.mem_filter.mp he2).2
      simpa using this
    have hfst : e2.run_id = e.run_id := congrArg Prod.fst hk
    exact hne (hfst.trans (he e heM))
  have key1 : ∀ (st : List SEntry), compute_scores_write st run entries
      = st.filter (fun e => e.run_id ≠ run) ++ dedupeByKey entryKey entries :=
    fun st => applyBatch_fresh entryKey (hfresh st)
  have keep : ∀ (st : List SEntry),
      (compute_scores_write st run entries).filter (fun e => e.run_id = run)
        = dedupeByKey entryKey entries := by
    intro st
    rw [key1 st, List.filter_append]
    have h1 : (st.filter (fun e => e.run_id ≠ run)).filter
        (fun e => e.run_id = run) = [] := by
      rw [List.filter_eq_nil_iff]
      intro e heM
      have := (List.mem_filter.mp heM).2
      simpa using this
    have h2 : (dedupeByKey entryKey entries).filter
        (fun e => e.run_id = run) = dedupeByKey entryKey entries := by
      rw [List.filter_eq_self]
      intro e heM
      simpa using hpure e heM
    rw [h1, h2, List.nil_append]
  have drop2 : ∀ (st : List SEntry),
      (compute_scores_write st run entries).filter (fun e => e.run_id ≠ run)
        = st.filter (fun e => e.run_id ≠ run) := by
    intro st
    rw [key1 st, List.filter_append]
    have h1 : (st.filter (fun e => e.run_id ≠ run)).filter
        (fun e => e.run_id ≠ run) = st.filter (fun e => e.run_id ≠ run) := by
      rw [List.filter_eq_self]
      intro e heM
      exact (List.mem_filter.mp heM).2
    have h2 : (dedupeByKey entryKey entries).filter
        (fun e => e.run_id ≠ run) = [] := by
      rw [List.filter_eq_nil_iff]
      intro e heM
      simpa using hpure e heM
    rw [h1, h2, List.append_nil]
  refine ⟨key1 state, keep state, drop2 state, (keep state).trans (keep state2).symm, ?_⟩
  calc compute_scores_write (compute_scores_write state run entries) run entries
      = applyBatch entryKey ((compute_scores_write state run entries).filter
          (fun e => e.run_id ≠ run)) entries := rfl
    _ = applyBatch entryKey (state.filter (fun e => e.run_id ≠ run)) entries := by
          rw [drop2 state]
    _ = compute_scores_write state run entries := rfl

/-- Witness for C2: a concrete wipe-and-rebuild of run 2 over a state
holding one stale row of run 2 and one row of run 1. -/
theorem compute_scores_full_rebuild_witness :
    (compute_scores_write
        [⟨1, 5, "a", 3⟩, ⟨2, 6, "b", 4⟩] 2 [⟨2, 7, "c", 1⟩]).filter
      (fun e => e.run_id = 2) = dedupeByKey entryKey [⟨2, 7, "c", 1⟩] :=
  (compute_scores_full_rebuild [⟨1, 5, "a", 3⟩, ⟨2, 6, "b", 4⟩]
    [⟨1, 5, "a", 3⟩, ⟨2, 6, "b", 4⟩] 2 [⟨2, 7, "c", 1⟩] (by decide)).2.1

/-! ## Claim C4: pagination termination -/

section PagerLemmas

variable {β : Type}

theorem part010_short_is_last (rows : List β) (per : Nat) :
    ∀ f p i, i ∈ pagerGoPart010 rows per f p →
      (pageAt rows per i).length < per →
      (pagerGoPart010 rows per f p).getLast? = some i := by
  intro f
  induction f with
  | zero => intro p i hi; simp [pagerGoPart010] at hi
  | succ f ih =>
    intro p i hi hshort
    simp only [pagerGoPart010] at hi ⊢
    by_cases h : (pageAt rows per p).length < per
    · rw [if_pos h] at hi ⊢
      simp at hi
      subst hi
      rfl
    · rw [if_neg h] at hi ⊢
      rcases List.mem_cons.mp hi with rfl | hi2
      · exact absurd hshort h
      · have hl := ih (p + 1) i hi2 hshort
        have hne : pagerGoPart010 rows per f (p + 1) ≠ [] := by
          intro he
          rw [he] at hi2
          cases hi2
        cases hrest : pagerGoPart010 rows per f (p + 1) with
        | nil => exact absurd hrest hne
        | cons b t =>
          rw [hrest] at hl
          rw [List.getLast?_cons_cons, hl]

theorem part010_stops_short (rows : List β) (per : Nat) :
    ∀ f p, (pagerGoPart010 rows per f p).length < f →
      ∃ i, (pagerGoPart010 rows per f p).getLast? = some i ∧
        (pageAt rows per i).length < per := by
  intro f
  induction f with
  | zero => intro p h; simp [pagerGoPart010] at h
  | succ f ih =>
    intro p h
    simp only [pagerGoPart010] at h ⊢
    by_cases hs : (pageAt rows per p).length < per
    · rw [if_pos hs]
      exact ⟨p, rfl, hs⟩
    · rw [if_neg hs] at h ⊢
      rw [List.length_cons] at h
      have hlen : (pagerGoPart010 rows per f (p + 1)).length < f :=
        Nat.lt_of_succ_lt_succ h
      rcases ih (p + 1) hlen with ⟨i, hl, hshort⟩
      refine ⟨i, ?_, hshort⟩
      cases hrest : pagerGoPart010 rows per f (p + 1) with
      | nil => rw [hrest] at hl; cases hl
      | cons b t =>
        rw [hrest] at hl
        rw [List.getLast?_cons_cons, hl]

theorem inat_go_terminates (rows : List β) (per : Nat) (hper : 0 < per) :
    ∀ f p, rows.length < (f + 1) + p * per →
      ∃ i, (pagerGoInat rows per (f + 1) p).getLast? = some i ∧
        pageAt rows per i = [] := by
  intro f
  induction f with
  | zero =>
    intro p h
    have hle : rows.length ≤ p * per := by omega
    have hempty : pageAt rows per p = [] := by
      unfold pageAt
      rw [List.drop_eq_nil_of_le hle, List.take_nil]
    refine ⟨p, ?_, hempty⟩
    simp [pagerGoInat, hempty]
  | succ f ih =>
    intro p h
    by_cases he : pageAt rows per p = []
    · refine ⟨p, ?_, he⟩
      simp [pagerGoInat, he]
    · have hlt : p * per < rows.length := by
        by_contra hc
        push_neg at hc
        apply he
        unfold pageAt
        rw [List.drop_eq_nil_of_le hc, List.take_nil]
      have hnext : rows.length < (f + 1) + (p + 1) * per := by
        rw [Nat.succ_mul]
        omega
      rcases ih (p + 1) hnext with ⟨i, hl, hempty⟩
      refine ⟨i, ?_, hempty⟩
      have hne : ¬((pageAt rows per p).isEmpty = true) := by
        cases hpe : pageAt rows per p with
        | nil => exact absurd hpe he
        | cons a t => simp
      have hstep : pagerGoInat rows per (f + 1 + 1) p =
          if (pageAt rows per p).isEmpty then [p]
          else p :: pagerGoInat rows per (f + 1) (p + 1) := rfl
      rw [hstep, if_neg hne]
      cases hrest : pagerGoInat rows per (f + 1) (p + 1) with
      | nil => rw [hrest] at hl; cases hl
      | cons b t =>
        rw [hrest] at hl
        rw [List.getLast?_cons_cons, hl]

theorem inat_nonlast_nonempty (rows : List β) (per : Nat) :
    ∀ f p i, i ∈ pagerGoInat rows per f p →
      (pagerGoInat rows per f p).getLast? ≠ some i →
      pageAt rows per i ≠ [] := by
  intro f
  induction f with
  | zero => intro p i hi; simp [pagerGoInat] at hi
  | succ f ih =>
    intro p i hi hlast
    by_cases he : (pageAt rows per p).isEmpty
    · simp only [pagerGoInat, if_pos he] at hi hlast
      simp at hi
      subst hi
      simp at hlast
    · simp only [pagerGoInat, if_neg he] at hi hlast
      rcases List.mem_cons.mp hi with rfl | hi2
      · intro hc
        rw [hc] at he
        exact he rfl
      · have hne : pagerGoInat rows per f (p + 1) ≠ [] := by
          intro hnil
          rw [hnil] at hi2
          cases hi2
        have hlast2 : (pagerGoInat rows per f (p + 1)).getLast? ≠ some i := by
          cases hrest : pagerGoInat rows per f (p + 1) with
          | nil => exact absurd hrest hne
          | cons b t =>
            rw [hrest, List.getLast?_cons_cons] at hlast
            exact hlast
        exact ih (p + 1) i hi2 hlast2

end PagerLemmas

/-- Claim C4 counterexample: `inatObsPager` in `ingest.mjs` does not end
pagination at a short page.  For a source holding 50 rows with page size
200 (0-based page indices), page 0 is short and non-empty, yet the pager
issues a second request — page 1, which returns zero rows — so
pagination does not terminate exactly at the short page. -/
theorem pagination_short_page_counterexample :
    inatObsPagerRequests (List.range 50) 200 = [0, 1]
    ∧ (pageAt (List.range 50) 200 0).length < 200
    ∧ pageAt (List.range 50) 200 0 ≠ [] := by
  refine ⟨by decide, by decide, by decide⟩

/-- Claim C4 amended: in `part_010`'s fetch loop a short or empty page,
when reached within the page cap, is the last page requested, and any
run that stops below the cap stopped at such a page; `inatObsPager` in
`ingest.mjs` ends pagination only on a zero-row page — every request
but the last returned a non-empty page, so after a short page exactly
the following empty page ends the loop. -/
theorem pagination_termination_amended {β : Type} (rows : List β)
    (per maxPages : Nat) (hper : 0 < per) :
    (∀ i ∈ part010Requests rows per maxPages,
        (pageAt rows per i).length < per →
        (part010Requests rows per maxPages).getLast? = some i)
    ∧ ((part010Requests rows per maxPages).length < maxPages →
        ∃ i, (part010Requests rows per maxPages).getLast? = some i ∧
          (pageAt rows per i).length < per)
    ∧ (∃ i, (inatObsPagerRequests rows per).getLast? = some i ∧
        pageAt rows per i = [])
    ∧ (∀ i ∈ inatObsPagerRequests rows per,
        (inatObsPagerRequests rows per).getLast? ≠ some i →
        pageAt rows per i ≠ []) := by
  refine ⟨?_, ?_, ?_, ?_⟩
  · intro i hi hshort
    exact part010_short_is_last rows per maxPages 0 i hi hshort
  · intro h
    exact part010_stops_short rows per maxPages 0 h
  · exact inat_go_terminates rows per hper rows.length 0 (by omega)
  · intro i hi hlast
    exact inat_nonlast_nonempty rows per (rows.length + 1) 0 i hi hlast

/-- Witness for the amended C4: a 5-row source with page size 2 — the
`ingest.mjs` pager's last request is an empty page. -/
theorem pagination_termination_amended_witness :
    ∃ i, (inatObsPagerRequests (List.range 5) 2).getLast? = some i ∧
      pageAt (List.range 5) 2 i = [] :=
  (pagination_termination_amended (List.range 5) 2 7 (by decide)).2.2.1

/-! ## Claim C5: write-timeout retry and bisection -/

section SbUpsertLemmas

variable {β : Type}

theorem sbUpsert_trace_head (oracle : Nat → SbResp) (minB maxR f : Nat)
    (rows : List β) (bs attempt k : Nat) (hrows : rows ≠ []) :
    ∃ t, (sbUpsert oracle minB maxR (f + 1) rows bs attempt k).2.2
        = (rows.length, bs) :: t := by
  have hni : rows.isEmpty = false := by
    cases rows with
    | nil => exact absurd rfl hrows
    | cons a l => rfl
  simp only [sbUpsert, hni, Bool.false_eq_true, if_false]
  split
  · exact ⟨[], rfl⟩
  · split
    · split
      · split
        · exact ⟨_, rfl⟩
        · split
          · exact ⟨_, rfl⟩
          · exact ⟨_, rfl⟩
      · split
        · exact ⟨_, rfl⟩
        · exact ⟨_, rfl⟩
    · split
      · exact ⟨_, rfl⟩
      · exact ⟨_, rfl⟩
  · split
    · exact ⟨_, rfl⟩
    · exact ⟨_, rfl⟩
  · split
    · exact ⟨_, rfl⟩
    · exact ⟨_, rfl⟩

theorem sbUpsert_count (oracle : Nat → SbResp) (minB maxR : Nat) :
    ∀ (f : Nat) (rows : List β) (bs attempt k c k2 : Nat)
      (t : List (Nat × Nat)),
      sbUpsert oracle minB maxR f rows bs attempt k = (some c, k2, t) →
      c = rows.length := by
  intro f
  induction f with
  | zero =>
    intro rows bs attempt k c k2 t h
    simp [sbUpsert] at h
  | succ f ih =>
    intro rows bs attempt k c k2 t h
    by_cases hni : rows.isEmpty
    · simp only [sbUpsert, if_pos hni] at h
      have h0 : rows = [] := by
        cases rows with
        | nil => rfl
        | cons a l => simp at hni
      have h1 : (some 0 : Option Nat) = some c := congrArg Prod.fst h
      injection h1 with hv
      rw [← hv, h0]
      rfl
    · simp only [sbUpsert, hni, Bool.false_eq_true, if_false] at h
      have hlen : (rows.take ((rows.length + 1) / 2)).length
          + (rows.drop ((rows.length + 1) / 2)).length = rows.length := by
        rw [← List.length_append, List.take_append_drop]
      split at h
      · -- oracle k = ok
        have h1 : some rows.length = some c := congrArg Prod.fst h
        injection h1 with hc
        rw [← hc]
      · -- oracle k = timeout
        split at h
        · -- minB < bs: bisection
          split at h
          · -- left half succeeded
            split at h
            · -- right half succeeded
              rename_i s1 c1 k1 t1 htake s2 c2 k2v t2 hdrop
              have h1 : some (c1 + c2) = some c := congrArg Prod.fst h
              injection h1 with hc
              have hc1 := ih _ _ _ _ _ _ _ htake
              have hc2 := ih _ _ _ _ _ _ _ hdrop
              omega
            · -- right half failed: full-batch retry or terminal
              split at h
              · rename_i s1 c1 k1 t1 htake s2 k2v t2 hdrop hatt
                have h1 : (sbUpsert oracle minB maxR f rows bs (attempt + 1)
                    k2v).1 = some c := congrArg Prod.fst h
                have hE : sbUpsert oracle minB maxR f rows bs (attempt + 1) k2v
                    = (some c,
                       (sbUpsert oracle minB maxR f rows bs (attempt + 1) k2v).2.1,
                       (sbUpsert oracle minB maxR f rows bs (attempt + 1) k2v).2.2) := by
                  rw [← h1]
                exact ih _ _ _ _ _ _ _ hE
              · have h1 : (none : Option Nat) = some c := congrArg Prod.fst h
                injection h1
          · -- left half failed: full-batch retry or terminal
            split at h
            · rename_i s1 k1v t1v htake hatt
              have h1 : (sbUpsert oracle minB maxR f rows bs (attempt + 1)
                  k1v).1 = some c := congrArg Prod.fst h
              have hE : sbUpsert oracle minB maxR f rows bs (attempt + 1) k1v
                  = (some c,
                     (sbUpsert oracle minB maxR f rows bs (attempt + 1) k1v).2.1,
                     (sbUpsert oracle minB maxR f rows bs (attempt + 1) k1v).2.2) := by
                rw [← h1]
              exact ih _ _ _ _ _ _ _ hE
            · have h1 : (none : Option Nat) = some c := congrArg Prod.fst h
              injection h1
        · -- batch size at floor: generic retry path
          split at h
          · have h1 : (sbUpsert oracle minB maxR f rows bs (attempt + 1)
                (k + 1)).1 = some c := congrArg Prod.fst h
            have hE : sbUpsert oracle minB maxR f rows bs (attempt + 1) (k + 1)
                = (some c,
                   (sbUpsert oracle minB maxR f rows bs (attempt + 1) (k + 1)).2.1,
                   (sbUpsert oracle minB maxR f rows bs (attempt + 1) (k + 1)).2.2) := by
              rw [← h1]
            exact ih _ _ _ _ _ _ _ hE
          · have h1 : (none : Option Nat) = some c := congrArg Prod.fst h
            injection h1
      · -- oracle k = serverErr
        split at h
        · have h1 : (sbUpsert oracle minB maxR f rows bs (attempt + 1)
              (k + 1)).1 = some c := congrArg Prod.fst h
          have hE : sbUpsert oracle minB maxR f rows bs (attempt + 1) (k + 1)
              = (some c,
                 (sbUpsert oracle minB maxR f rows bs (attempt + 1) (k + 1)).2.1,
                 (sbUpsert oracle minB maxR f rows bs (attempt + 1) (k + 1)).2.2) := by
            rw [← h1]
          exact ih _ _ _ _ _ _ _ hE
        · have h1 : (none : Option Nat) = some c := congrArg Prod.fst h
          injection h1
      · -- oracle k = clientErr
        split at h
        · have h1 : (sbUpsert oracle minB maxR f rows bs (attempt + 1)
              (k + 1)).1 = some c := congrArg Prod.fst h
          have hE : sbUpsert oracle minB maxR f rows bs (attempt + 1) (k + 1)
              = (some c,
                 (sbUpsert oracle minB maxR f rows bs (attempt + 1) (k + 1)).2.1,
                 (sbUpsert oracle minB maxR f rows bs (attempt + 1) (k + 1)).2.2) := by
            rw [← h1]
          exact ih _ _ _ _ _ _ _ hE
        · have h1 : (none : Option Nat) = some c := congrArg Prod.fst h
          injection h1

end SbUpsertLemmas

/-- Claim C5 counterexample: in `sbUpsert` (`part_010`) a 100-row batch
whose first POST hits a statement timeout is *not* retried in full at
all — the very first timeout response triggers bisection.  With the
oracle answering timeout then success, the request trace is one 100-row
POST followed by the two 50-row halves (`countP` of full-batch requests
is 1, not the 3 the claim's two-retries-then-bisect scenario implies),
and the total reported count is still 100. -/
theorem sbUpsert_two_retries_counterexample :
    sbUpsert oracleC5 10 6 20 (List.range 100) 100 0 0
      = (some 100, 3, [(100, 100), (50, 50), (50, 50)])
    ∧ ((sbUpsert oracleC5 10 6 20 (List.range 100) 100 0 0).2.2.countP
        (fun q => q.1 = 100)) = 1 := by
  refine ⟨by decide, by decide⟩

/-- Claim C5 amended: on a write-timeout (HTTP 500 with code 57014) with
the batch size above the floor, `sbUpsert` bisects immediately — the
request after the timeout is the left half at the halved batch size,
with no full-batch retry first; whenever `sbUpsert` reports success the
reported count equals the number of rows of the batch (so the 100-row
scenario still upserts 100); and at the batch-size floor a timeout with
no attempts left is surfaced as a terminal error for that sub-batch. -/
theorem sbUpsert_timeout_bisection_amended {β : Type}
    (oracle : Nat → SbResp) (minB maxR : Nat) :
    (∀ (f : Nat) (rows : List β) (bs attempt k : Nat), rows ≠ [] →
      minB < bs → oracle k = .timeout →
      ∃ t, (sbUpsert oracle minB maxR (f + 1 + 1) rows bs attempt k).2.2
          = (rows.length, bs)
            :: ((rows.take ((rows.length + 1) / 2)).length,
                max minB (bs / 2)) :: t)
    ∧ (∀ (f : Nat) (rows : List β) (bs attempt k c k2 : Nat)
        (t : List (Nat × Nat)),
        sbUpsert oracle minB maxR f rows bs attempt k = (some c, k2, t) →
        c = rows.length)
    ∧ (∀ (f : Nat) (rows : List β) (bs attempt k : Nat), rows ≠ [] →
        ¬minB < bs → oracle k = .timeout → ¬attempt < maxR →
        (sbUpsert oracle minB maxR (f + 1) rows bs attempt k).1 = none) := by
  refine ⟨?_, sbUpsert_count oracle minB maxR, ?_⟩
  · intro f rows bs attempt k hrows hbs hk
    have hni : rows.isEmpty = false := by
      cases rows with
      | nil => exact absurd rfl hrows
      | cons a l => rfl
    have hpos : 0 < rows.length := List.length_pos.mpr hrows
    have hmid : rows.take ((rows.length + 1) / 2) ≠ [] := by
      rw [Ne, List.take_eq_nil_iff]
      push_neg
      exact ⟨by omega, hrows⟩
    obtain ⟨t1x, ht1⟩ := sbUpsert_trace_head oracle minB maxR f
      (rows.take ((rows.length + 1) / 2)) (max minB (bs / 2)) 0 (k + 1) hmid
    generalize hg : f + 1 = g at ht1 ⊢
    simp only [sbUpsert, hni, Bool.false_eq_true, if_false]
    split
    · rename_i heq
      rw [hk] at heq
      cases heq
    · rw [if_pos hbs]
      split
      · rename_i c1 k1 t1 heq1
        rw [heq1] at ht1
        have ht2 : t1 = ((rows.take ((rows.length + 1) / 2)).length,
            max minB (bs / 2)) :: t1x := ht1
        split
        · exact ⟨_, by rw [ht2]; rfl⟩
        · split
          · exact ⟨_, by rw [ht2]; rfl⟩
          · exact ⟨_, by rw [ht2]; rfl⟩
      · rename_i k1 t1 heq1
        rw [heq1] at ht1
        have ht2 : t1 = ((rows.take ((rows.length + 1) / 2)).length,
            max minB (bs / 2)) :: t1x := ht1
        split
        · exact ⟨_, by rw [ht2]; rfl⟩
        · exact ⟨_, by rw [ht2]⟩
    · rename_i heq
      rw [hk] at heq
      cases heq
    · rename_i heq
      rw [hk] at heq
      cases heq
  · intro f rows bs attempt k hrows hbs hk hatt
    have hni : rows.isEmpty = false := by
      cases rows with
      | nil => exact absurd rfl hrows
      | cons a l => rfl
    simp only [sbUpsert, hni, Bool.false_eq_true, if_false]
    split
    · rename_i heq
      rw [hk] at heq
      cases heq
    · rw [if_neg hbs, if_neg hatt]
    · rename_i heq
      rw [hk] at heq
      cases heq
    · rename_i heq
      rw [hk] at heq
      cases heq

/-- Witness for the amended C5: a four-row batch at batch size 20 whose
first POST times out — the next request is the two-row left half at
batch size 10. -/
theorem sbUpsert_timeout_bisection_amended_witness :
    ∃ t, (sbUpsert oracleC5 10 6 (5 + 1 + 1) (List.range 4) 20 0 0).2.2
        = ((List.range 4).length, 20)
          :: (((List.range 4).take (((List.range 4).length + 1) / 2)).length,
              max 10 (20 / 2)) :: t :=
  (sbUpsert_timeout_bisection_amended oracleC5 10 6).1 5 (List.range 4) 20 0 0
    (by decide) (by decide) (by decide)

/-! ## Claim C7: terminal upstream statuses -/

/-- Claim C7 counterexample: a 403 response — a non-success status that
is neither 429 nor 5xx — is retried by `fetchJsonWithRetries`
(`part_004`): with the next attempt succeeding, the call returns the
second response's payload after consuming two requests instead of
failing fast on the first. -/
theorem fetch_fail_fast_counterexample :
    fetchJsonWithRetries oracle403 7 0 = (.ok 1, 2)
    ∧ (oracle403 0).status = 403
    ∧ (oracle403 0).status ≠ 429
    ∧ ¬(500 ≤ (oracle403 0).status)
    ∧ ¬(200 ≤ (oracle403 0).status ∧ (oracle403 0).status < 300) := by
  refine ⟨rfl, by decide, by decide, by decide, by decide⟩

/-- Claim C7 amended: in `fetchJsonWithRetries` (`part_004`) a failing
status other than 429, 403 and 5xx throws immediately, carrying the
status and the body truncated to 240 characters, after a single request;
403 (like 429 and 5xx) is retried while attempts remain.  In `part_010`'s
`fetchJson`, any failing response at all is retried while attempts
remain, because the terminal `throw` is caught by the retry loop's
`catch`. -/
theorem fetch_fail_fast_amended (oracle : Nat → HResp) (f k : Nat) :
    ((¬(200 ≤ (oracle k).status ∧ (oracle k).status < 300)) →
      (oracle k).status ≠ 429 → (oracle k).status ≠ 403 →
      (oracle k).status < 500 →
      fetchJsonWithRetries oracle (f + 1) k
        = (.error ((oracle k).status, (oracle k).body.take 240), k + 1))
    ∧ ((oracle k).status = 403 →
      (200 ≤ (oracle (k + 1)).status ∧ (oracle (k + 1)).status < 300) →
      0 < f →
      fetchJsonWithRetries oracle (f + 1) k = (.ok (k + 1), k + 2))
    ∧ ((¬(200 ≤ (oracle k).status ∧ (oracle k).status < 300)) →
      (200 ≤ (oracle (k + 1)).status ∧ (oracle (k + 1)).status < 300) →
      0 < f →
      fetchJson10 oracle (f + 1) k = (some (.ok (k + 1)), k + 2)) := by
  refine ⟨?_, ?_, ?_⟩
  · intro hbad h429 h403 h5xx
    have hcond : ¬(((oracle k).status = 429 ∨ (oracle k).status = 403
        ∨ 500 ≤ (oracle k).status) ∧ 0 < f) := by
      intro hc
      rcases hc.1 with h | h | h
      · exact h429 h
      · exact h403 h
      · omega
    simp only [fetchJsonWithRetries]
    rw [if_neg hbad, if_neg hcond]
  · intro h403 hok hf
    have hbad : ¬(200 ≤ (oracle k).status ∧ (oracle k).status < 300) := by
      rw [h403]
      omega
    have hcond : ((oracle k).status = 429 ∨ (oracle k).status = 403
        ∨ 500 ≤ (oracle k).status) ∧ 0 < f := ⟨Or.inr (Or.inl h403), hf⟩
    simp only [fetchJsonWithRetries]
    rw [if_neg hbad, if_pos hcond]
    cases f with
    | zero => omega
    | succ f2 =>
      simp only [fetchJsonWithRetries]
      rw [if_pos hok]
  · intro hbad hok hf
    simp only [fetchJson10]
    rw [if_neg hbad, if_pos hf]
    cases f with
    | zero => omega
    | succ f2 =>
      simp only [fetchJson10]
      rw [if_pos hok]

/-- Witness for the amended C7: a 404 — terminal in `part_004` — fails
fast with the truncated body after one request. -/
theorem fetch_fail_fast_amended_witness :
    fetchJsonWithRetries oracle404 (6 + 1) 0
      = (.error ((oracle404 0).status, (oracle404 0).body.take 240), 0 + 1) :=
  (fetch_fail_fast_amended oracle404 6 0).1 (by decide) (by decide)
    (by decide) (by decide)

/-! ## Claim C8: deletion-feed failure and reconciliation fallback -/

section ReconcileLemmas

variable {β : Type}

theorem collectGo_all (rows : List β) (per : Nat) (hper : 0 < per) :
    ∀ f p, rows.length ≤ (p + f) * per →
      collectGo rows per f p = rows.drop (p * per) := by
  intro f
  induction f with
  | zero =>
    intro p h
    simp only [collectGo]
    exact (List.drop_eq_nil_of_le (by simpa using h)).symm
  | succ f ih =>
    intro p h
    simp only [collectGo]
    by_cases he : (pageAt rows per p).isEmpty
    · rw [if_pos he]
      have hpe : pageAt rows per p = [] := by
        cases hq : pageAt rows per p with
        | nil => rfl
        | cons a t => rw [hq] at he; simp at he
      have hnil : rows.drop (p * per) = [] := by
        unfold pageAt at hpe
        rcases List.take_eq_nil_iff.mp hpe with h0 | h0
        · omega
        · exact h0
      rw [hnil]
    · rw [if_neg he]
      by_cases hs : (pageAt rows per p).length < per
      · rw [if_pos hs]
        unfold pageAt at hs ⊢
        rw [List.length_take, List.length_drop] at hs
        have hd : rows.length - p * per < per := by
          by_contra hge
          push_neg at hge
          rw [min_eq_left hge] at hs
          exact lt_irrefl _ hs
        exact List.take_of_length_le (by rw [List.length_drop]; omega)
      · rw [if_neg hs]
        have hnext : rows.length ≤ (p + 1 + f) * per := by
          have heq : (p + (f + 1)) * per = (p + 1 + f) * per := by ring
          rw [← heq]
          exact h
        rw [ih (p + 1) hnext]
        unfold pageAt
        rw [show (p + 1) * per = p * per + per from by ring, ← List.drop_drop]
        exact List.take_append_drop per (rows.drop (p * per))

theorem reconcileCollect_all (rows : List β) (per mp : Nat) (hper : 0 < per)
    (h : rows.length ≤ mp * per) : reconcileCollect rows per mp = rows := by
  unfold reconcileCollect
  rw [collectGo_all rows per hper mp 0 (by simpa using h)]
  simp

end ReconcileLemmas

/-- Claim C8 counterexample: `handleDeletions` (`part_005`) does not
fall back to reconciliation — when the deletion-feed call fails
(`!response.ok`, modelled `none`) it logs and returns, deleting nothing.
With one local in-window row (id 42, `updated_at` 100 ≥ since 0) and an
upstream window that no longer contains id 42, the claimed fallback
would leave the store empty, but the store is unchanged. -/
theorem deletion_fallback_counterexample :
    handleDeletions none [⟨42, 100⟩] = [⟨42, 100⟩]
    ∧ sbDeleteByIds [⟨42, 100⟩]
        (reconcileDeletes [] [⟨42, 100⟩] 0 200 50) = []
    ∧ ([⟨42, 100⟩] : List ObsRow) ≠ [] := by
  refine ⟨rfl, by decide, by decide⟩

/-- Claim C8 amended: in `part_005`, a failed deletion-feed call aborts
deletion handling entirely — no local row is removed.  The claimed
fallback lives in the diagnostic-file ingest variant: when
`fetchDeletedIdsSince` fails its catch returns `null` and `main` calls
`reconcileDeletes`, which (when the window's id set fits the 50-page
re-fetch cap, for a store with unique ids) deletes exactly the ids
present locally in-window but absent from the fresh upstream fetch, and
removes no other local rows. -/
theorem deletion_reconciliation_amended :
    (∀ store : List ObsRow, handleDeletions none store = store)
    ∧ (∀ (upstreamIds : List Nat) (store : List ObsRow) (since : Int)
        (per mp : Nat), 0 < per → upstreamIds.length ≤ mp * per →
        (store.map (fun r => r.inat_obs_id)).Nodup →
        sbDeleteByIds store (reconcileDeletes upstreamIds store since per mp)
          = store.filter (fun r =>
              ¬(since ≤ r.updated_at ∧ r.inat_obs_id ∉ upstreamIds))) := by
  refine ⟨fun store => rfl, ?_⟩
  intro up store since per mp hper hlen hnd
  have hcur : reconcileCollect up per mp = up :=
    reconcileCollect_all up per mp hper hlen
  unfold sbDeleteByIds reconcileDeletes sbSelectRecentIds
  rw [hcur]
  apply List.filter_congr
  intro r hr
  rw [decide_eq_decide]
  constructor
  · intro hnotin hc
    apply hnotin
    rw [List.mem_filter]
    refine ⟨?_, by simpa using hc.2⟩
    exact List.mem_map.mpr ⟨r, List.mem_filter.mpr ⟨hr, by simpa using hc.1⟩, rfl⟩
  · intro hniff hmem
    rw [List.mem_filter] at hmem
    rcases List.mem_map.mp hmem.1 with ⟨r2, hr2, hid⟩
    rw [List.mem_filter] at hr2
    have hr2win : since ≤ r2.updated_at := by simpa using hr2.2
    have hnotup : r.inat_obs_id ∉ up := by simpa using hmem.2
    have hre : r2 = r := List.inj_on_of_nodup_map hnd hr2.1 hr hid
    exact hniff ⟨hre ▸ hr2win, hnotup⟩

/-- Witness for the amended C8: ids 1 and 2 still upstream; the local
store holds id 1 (in-window), id 3 (in-window, gone upstream) and id 4
(out of window).  Exactly id 3 is removed. -/
theorem deletion_reconciliation_amended_witness :
    sbDeleteByIds [⟨1, 50⟩, ⟨3, 60⟩, ⟨4, 5⟩]
        (reconcileDeletes [1, 2] [⟨1, 50⟩, ⟨3, 60⟩, ⟨4, 5⟩] 10 200 50)
      = ([⟨1, 50⟩, ⟨3, 60⟩, ⟨4, 5⟩] : List ObsRow).filter (fun r =>
          ¬((10 : Int) ≤ r.updated_at ∧ r.inat_obs_id ∉ [1, 2])) :=
  deletion_reconciliation_amended.2 [1, 2] [⟨1, 50⟩, ⟨3, 60⟩, ⟨4, 5⟩] 10 200 50
    (by decide) (by decide) (by decide)

/-! ## Claim C6: resume point from the persisted watermark -/

theorem sbSelectLastUpdated_spec (tbl : List Int) :
    (∀ t, sbSelectLastUpdated tbl = some t → t ∈ tbl ∧ ∀ u ∈ tbl, u ≤ t)
    ∧ (sbSelectLastUpdated tbl = none ↔ tbl = []) := by
  haveI hT : IsTotal Int (fun a b => b ≤ a) := ⟨fun a b => le_total b a⟩
  haveI hR : IsTrans Int (fun a b => b ≤ a) := ⟨fun a b c h1 h2 => le_trans h2 h1⟩
  have hsort := List.sorted_insertionSort (fun a b => b ≤ a) tbl
  have hperm := List.perm_insertionSort (fun a b => b ≤ a) tbl
  unfold sbSelectLastUpdated
  cases hs : List.insertionSort (fun a b => b ≤ a) tbl with
  | nil =>
    rw [hs] at hperm
    have hnil : tbl = [] := hperm.symm.eq_nil
    constructor
    · intro t ht
      cases ht
    · simp [hnil]
  | cons hd tl =>
    rw [hs] at hperm hsort
    constructor
    · intro t ht
      have htd : hd = t := by
        injection ht
      subst htd
      constructor
      · exact hperm.mem_iff.mp (List.mem_cons_self hd tl)
      · intro u hu
        rcases List.mem_cons.mp (hperm.mem_iff.mpr hu) with rfl | hmem
        · exact le_refl u
        · exact List.rel_of_sorted_cons hsort u hmem
    · constructor
      · intro hcontra
        cases hcontra
      · intro hnil
        rw [hnil] at hperm
        have := hperm.eq_nil
        cases this

/-- Claim C6: the `since` filter of the next sync equals the last
persisted watermark — the maximum `updated_at` previously stored (read
back as `ORDER BY updated_at DESC LIMIT 1`) — minus the fixed 30-second
safety overlap; on a first run `part_010` uses no `updated_since` filter
at all and the diagnostic-file variant uses the epoch default, each the
variant's default resume point. -/
theorem resume_point_watermark_minus_overlap (tbl ledger : List Int) :
    (∀ t, sbSelectLastUpdated tbl = some t →
      (t ∈ tbl ∧ ∀ u ∈ tbl, u ≤ t)
      ∧ part010UpdatedSince tbl = some (t - 30000))
    ∧ (tbl = [] → part010UpdatedSince tbl = none)
    ∧ (∀ t, sbSelectLastUpdated ledger = some t →
      getSinceTimestamp ledger = t - 30000)
    ∧ (ledger = [] → getSinceTimestamp ledger = 0 - 30000) := by
  refine ⟨?_, ?_, ?_, ?_⟩
  · intro t ht
    refine ⟨(sbSelectLastUpdated_spec tbl).1 t ht, ?_⟩
    unfold part010UpdatedSince
    rw [ht]
    rfl
  · intro hnil
    subst hnil
    rfl
  · intro t ht
    unfold getSinceTimestamp
    unfold sbSelectLastUpdated at ht
    rw [ht]
    rfl
  · intro hnil
    subst hnil
    rfl

/-- Witness for C6: watermark 5000 over the column values
`[1000, 5000, 3000]` — the since filter is `5000 - 30000`. -/
theorem resume_point_watermark_minus_overlap_witness :
    ((5000 : Int) ∈ [(1000 : Int), 5000, 3000]
      ∧ ∀ u ∈ [(1000 : Int), 5000, 3000], u ≤ 5000)
    ∧ part010UpdatedSince [(1000 : Int), 5000, 3000] = some (5000 - 30000) :=
  (resume_point_watermark_minus_overlap [(1000 : Int), 5000, 3000] []).1
    5000 (by decide)

/-! ## Claims C3 and C10: duplicate suppression and per-student counts -/

section ScoringLemmas

variable {T : Type} [LinearOrder T] (pt : T → Option Int)

theorem taxSame_iff (a b : SObs T)
    (ha : ∀ x, a.taxon_id = some x → 0 < x) :
    taxSame a b = true ↔ ∃ x, a.taxon_id = some x ∧ b.taxon_id = some x := by
  constructor
  · intro h
    unfold taxSame at h
    simp only [Bool.and_eq_true] at h
    obtain ⟨⟨h1, h2⟩, h3⟩ := h
    have heq : a.taxon_id = b.taxon_id := of_decide_eq_true h3
    cases hax : a.taxon_id with
    | none =>
      rw [hax] at h1
      simp [truthyNat] at h1
    | some x => exact ⟨x, rfl, heq.symm.trans hax⟩
  · rintro ⟨x, h1, h2⟩
    have hx0 : x ≠ 0 := by
      have := ha x h1
      omega
    unfold taxSame
    rw [h1, h2]
    simp [truthyNat, hx0]

theorem timeClose_iff (win : Int) (a b : SObs T) :
    timeClose pt win a b = true ↔
      ∃ ta tb, jsDateMs pt a.observed_at_utc = some ta
        ∧ jsDateMs pt b.observed_at_utc = some tb ∧ tb - ta ≤ win := by
  constructor
  · intro h
    unfold timeClose at h
    cases hja : jsDateMs pt a.observed_at_utc with
    | none => rw [hja] at h; simp at h
    | some ta =>
      cases hjb : jsDateMs pt b.observed_at_utc with
      | none => rw [hja, hjb] at h; simp at h
      | some tb =>
        rw [hja, hjb] at h
        exact ⟨ta, tb, rfl, rfl, of_decide_eq_true h⟩
  · rintro ⟨ta, tb, h1, h2, h3⟩
    unfold timeClose
    rw [h1, h2]
    exact decide_eq_true h3

theorem whereClose_iff (a b : SObs T) :
    whereClose a b = true ↔
      ∃ la lb loa lob, a.latitude = some la ∧ b.latitude = some lb
        ∧ a.longitude = some loa ∧ b.longitude = some lob
        ∧ round2 la = round2 lb ∧ round2 loa = round2 lob := by
  constructor
  · intro h
    unfold whereClose at h
    cases hla : a.latitude with
    | none => rw [hla] at h; simp at h
    | some la =>
      cases hlb : b.latitude with
      | none => rw [hla, hlb] at h; simp at h
      | some lb =>
        cases hoa : a.longitude with
        | none => rw [hla, hlb, hoa] at h; simp at h
        | some loa =>
          cases hob : b.longitude with
          | none => rw [hla, hlb, hoa, hob] at h; simp at h
          | some lob =>
            rw [hla, hlb, hoa, hob] at h
            have h2 : (decide (round2 la = round2 lb)
                && decide (round2 loa = round2 lob)) = true := h
            rw [Bool.and_eq_true] at h2
            exact ⟨la, lb, loa, lob, rfl, rfl, rfl, rfl,
              of_decide_eq_true h2.1, of_decide_eq_true h2.2⟩
  · rintro ⟨la, lb, loa, lob, h1, h2, h3, h4, h5, h6⟩
    unfold whereClose
    rw [h1, h2, h3, h4]
    show (decide (round2 la = round2 lb)
        && decide (round2 loa = round2 lob)) = true
    rw [Bool.and_eq_true]
    exact ⟨decide_eq_true h5, decide_eq_true h6⟩

theorem flaggedPair_iff (win : Int) (a b : SObs T)
    (ha : ∀ x, a.taxon_id = some x → 0 < x) :
    flaggedPair pt win a b = true ↔
      ((∃ x, a.taxon_id = some x ∧ b.taxon_id = some x)
      ∧ (∃ ta tb, jsDateMs pt a.observed_at_utc = some ta
          ∧ jsDateMs pt b.observed_at_utc = some tb ∧ tb - ta ≤ win)
      ∧ (∃ la lb loa lob, a.latitude = some la ∧ b.latitude = some lb
          ∧ a.longitude = some loa ∧ b.longitude = some lob
          ∧ round2 la = round2 lb ∧ round2 loa = round2 lob)) := by
  unfold flaggedPair
  rw [Bool.and_eq_true, Bool.and_eq_true, taxSame_iff a b ha,
    timeClose_iff pt win a b, whereClose_iff a b]
  tauto

theorem zip_replicate_self (o : SObs T) :
    ∀ m : Nat, (List.replicate (m + 1) o).zip (List.replicate m o)
      = List.replicate m (o, o) := by
  intro m
  induction m with
  | zero => rfl
  | succ m ih =>
    show (o :: List.replicate (m + 1) o).zip (o :: List.replicate m o)
        = (o, o) :: List.replicate m (o, o)
    rw [List.zip_cons_cons, ih]

theorem dupCount_replicate (win : Int) (o : SObs T) (n : Nat)
    (hobs : o.observed_at_utc.isSome = true)
    (hflag : flaggedPair pt win o o = true) :
    dupCount pt win (List.replicate n o) = n - 1 := by
  unfold dupCount dupObs
  rw [List.filter_replicate, if_pos hobs]
  have hsort : List.insertionSort (fun a b => obsLe a b = true)
      (List.replicate n o) = List.replicate n o := by
    rw [List.eq_replicate_iff]
    constructor
    · rw [(List.perm_insertionSort _ _).length_eq, List.length_replicate]
    · intro b hb
      have hmem := (List.perm_insertionSort
        (fun a b => obsLe a b = true) (List.replicate n o)).mem_iff.mp hb
      exact (List.mem_replicate.mp hmem).2
  rw [hsort]
  unfold adjPairs
  rw [List.tail_replicate]
  cases n with
  | zero => rfl
  | succ m =>
    rw [Nat.succ_sub_one, zip_replicate_self, List.countP_replicate,
      if_pos hflag]

end ScoringLemmas

/-- Claim C3: duplicate suppression in `scoreAll` compares only adjacent
pairs of the participant's time-ordered list; a pair is flagged exactly
when both observations carry the same (positive) taxon id, their gap is
within the configured window, and their coordinates, rounded to two
decimals, match exactly; hence N identical consecutive observations
yield N−1 duplicate counts, and the records at `t`, `t + 5 min`,
`t + 2 h` with a one-hour window count exactly 1 duplicate. -/
theorem scoreAll_duplicates_adjacent {T : Type} [LinearOrder T]
    (pt : T → Option Int) (win : Int) :
    (∀ a b : SObs T, (∀ x, a.taxon_id = some x → 0 < x) →
      (flaggedPair pt win a b = true ↔
        ((∃ x, a.taxon_id = some x ∧ b.taxon_id = some x)
        ∧ (∃ ta tb, jsDateMs pt a.observed_at_utc = some ta
            ∧ jsDateMs pt b.observed_at_utc = some tb ∧ tb - ta ≤ win)
        ∧ (∃ la lb loa lob, a.latitude = some la ∧ b.latitude = some lb
            ∧ a.longitude = some loa ∧ b.longitude = some lob
            ∧ round2 la = round2 lb ∧ round2 loa = round2 lob))))
    ∧ (∀ (o : SObs T) (n : Nat), o.observed_at_utc.isSome = true →
        flaggedPair pt win o o = true →
        dupCount pt win (List.replicate n o) = n - 1)
    ∧ dupCount pt3 3600000 scenarioC3 = 1 := by
  refine ⟨fun a b ha => flaggedPair_iff pt win a b ha,
    fun o n hobs hflag => dupCount_replicate pt win o n hobs hflag,
    by decide⟩

/-- Witness for C3: four identical observations (valid time, taxon 7,
equal coordinates) produce exactly three duplicate flags. -/
theorem scoreAll_duplicates_adjacent_witness :
    dupCount pt3 3600000 (List.replicate 4 (obsAt3 0)) = 4 - 1 :=
  (scoreAll_duplicates_adjacent pt3 3600000).2.1 (obsAt3 0) 4
    (by decide) (by decide)

/-- Claim C10: an observation with a SQL-null `observed_at_utc` is
excluded from the duplicate-pair comparison (the scan filters on a
truthy `observed_at_utc`), and an observation whose timestamp does not
parse contributes no local day to `D`; yet such observations still count
in the volume `O`, the unique-taxa set behind `U`, the research-grade
count `RG` and the species-or-lower count `SL`.  A null timestamp itself
still parses in JS (`new Date(null)` is the epoch), so it contributes
the fixed epoch-shifted day `-1` rather than being dropped from `D`. -/
theorem scoreAll_null_time_contributions {T : Type} [LinearOrder T]
    (pt : T → Option Int) (win : Int) (L : List (SObs T)) (o : SObs T) :
    (o.observed_at_utc = none →
      statO (L ++ [o]) = statO L + 1
      ∧ statRG (L ++ [o])
          = statRG L + (if o.quality_grade = some "research" then 1 else 0)
      ∧ statSL (L ++ [o]) = statSL L + (if isSL o.taxon_rank then 1 else 0)
      ∧ (∀ x, o.taxon_id = some x → x ≠ 0 →
          statU (L ++ [o])
            = if x ∈ taxaOf L then statU L else statU L + 1)
      ∧ dupCount pt win (L ++ [o]) = dupCount pt win L
      ∧ daysOf pt (L ++ [o]) = daysOf pt L ++ [(-1 : Int)])
    ∧ (∀ s, o.observed_at_utc = some s → pt s = none →
      statD pt (L ++ [o]) = statD pt L
      ∧ statO (L ++ [o]) = statO L + 1) := by
  have hO : statO (L ++ [o]) = statO L + 1 := by
    unfold statO
    rw [List.length_append]
    rfl
  constructor
  · intro hnull
    refine ⟨hO, ?_, ?_, ?_, ?_, ?_⟩
    · unfold statRG
      rw [List.filter_append, List.length_append]
      by_cases hq : o.quality_grade = some "research"
      · simp [hq]
      · simp [hq]
    · unfold statSL
      rw [List.filter_append, List.length_append]
      by_cases hr : isSL o.taxon_rank
      · simp [hr]
      · simp [hr]
    · intro x hx hx0
      have htax : taxaOf (L ++ [o]) = taxaOf L ++ [x] := by
        unfold taxaOf
        rw [List.filterMap_append, List.filter_append]
        congr 1
        simp [hx, hx0]
      unfold statU
      rw [htax, List.toFinset_append]
      have hsingle : ([x] : List Nat).toFinset = {x} := rfl
      rw [hsingle, Finset.union_comm, ← Finset.insert_eq]
      by_cases hmem : x ∈ taxaOf L
      · rw [if_pos hmem, Finset.insert_eq_self.mpr (List.mem_toFinset.mpr hmem)]
      · rw [if_neg hmem,
          Finset.card_insert_of_not_mem (fun hc => hmem (List.mem_toFinset.mp hc))]
    · unfold dupCount dupObs
      rw [List.filter_append]
      have hfo : List.filter (fun o2 => o2.observed_at_utc.isSome) [o] = [] := by
        simp [List.filter, hnull]
      rw [hfo, List.append_nil]
    · unfold daysOf
      rw [List.filterMap_append]
      congr 1
      have hday : localDayCR pt o.observed_at_utc = some (-1) := by
        rw [hnull]
        show some (((0 : Int) - 8 * 3600000).fdiv (24 * 3600000)) = some (-1)
        decide
      simp [List.filterMap, hday]
  · intro s hs hps
    refine ⟨?_, hO⟩
    unfold statD daysOf
    rw [List.filterMap_append]
    have hday : localDayCR pt o.observed_at_utc = none := by
      rw [hs]
      show Option.map (fun t => (t - 8 * 3600000).fdiv (24 * 3600000)) (pt s)
          = none
      rw [hps]
      rfl
    rw [show List.filterMap (fun o2 => localDayCR pt o2.observed_at_utc) [o]
        = [] from by simp [List.filterMap, hday]]
    rw [List.append_nil]

/-- Witness for C10: appending a null-time research-grade,
species-ranked observation of taxon 7 increments the volume count. -/
theorem scoreAll_null_time_contributions_witness :
    statO ([obsAt3 0] ++ [nullTimeObs]) = statO [obsAt3 0] + 1 :=
  ((scoreAll_null_time_contributions pt3 3600000 [obsAt3 0]
    nullTimeObs).1 rfl).1
